import Mathlib

/-!
Verification of the disjoint-set (union-find) engine of `cpplib/djset.cpp`.

The C++ class `DisjointSet` keeps three parallel arrays `parent`, `rank`,
`size` over `n` elements plus a live-component counter `components`.  We embed
the class shallowly: the arrays become functions `Nat → Nat` (an array cell
`a[i]` is `a i`; an in-place write is `Function.update`), the mutating
member functions become state-passing functions, and the recursive `find`
is given an explicit fuel argument (`n` units of fuel suffice on every
well-formed state, which is proved below, so the embedded `find` agrees with
the C++ recursion on every state the program can actually reach).
`float` values of the spatial constructors are modelled as exact rationals.
-/

namespace Djset

/-- State of the C++ `DisjointSet` object: the three parallel arrays,
the element count `n` and the live component counter. -/
structure DisjointSet where
  parent : Nat → Nat
  rank : Nat → Nat
  size : Nat → Nat
  n : Nat
  components : Nat

/-- Constructor `DisjointSet(int n)`: `n` singletons, `parent[i] = i`,
`rank[i] = 0`, `size[i] = 1`, `components = n`. -/
def DisjointSet.new (n : Nat) : DisjointSet where
  parent := fun i => i
  rank := fun _ => 0
  size := fun _ => 1
  n := n
  components := n

/-- The recursive body of `DisjointSet::find` with explicit fuel:
`if (parent[x] != x) parent[x] = find(parent[x]); return parent[x];`.
Returns the updated `parent` array and the returned root. -/
def findAux : Nat → (Nat → Nat) → Nat → ((Nat → Nat) × Nat)
  | 0, p, x => (p, x)
  | fuel + 1, p, x =>
    if p x = x then (p, x)
    else
      let r := findAux fuel p (p x)
      (Function.update r.1 x r.2, r.2)

/-- `DisjointSet::find(x)` with path compression; fuel `n` is enough on
well-formed states (lemma `findAux_fuel_spec` below). -/
def DisjointSet.find (s : DisjointSet) (x : Nat) : DisjointSet × Nat :=
  let r := findAux s.n s.parent x
  ({ s with parent := r.1 }, r.2)

/-- `DisjointSet::unite(x, y)`: two `find`s, then merge by rank exactly as in
the source (`rank[rx] < rank[ry]`, `rank[rx] > rank[ry]`, tie), decrementing
`components` on a successful merge. -/
def DisjointSet.unite (s : DisjointSet) (x y : Nat) : DisjointSet × Bool :=
  let fx := s.find x
  let rx := fx.2
  let fy := fx.1.find y
  let s1 := fy.1
  let ry := fy.2
  if rx = ry then (s1, false)
  else if s1.rank rx < s1.rank ry then
    ({ s1 with parent := Function.update s1.parent rx ry,
               size := Function.update s1.size ry (s1.size ry + s1.size rx),
               components := s1.components - 1 }, true)
  else if s1.rank rx > s1.rank ry then
    ({ s1 with parent := Function.update s1.parent ry rx,
               size := Function.update s1.size rx (s1.size rx + s1.size ry),
               components := s1.components - 1 }, true)
  else
    ({ s1 with parent := Function.update s1.parent ry rx,
               rank := Function.update s1.rank rx (s1.rank rx + 1),
               size := Function.update s1.size rx (s1.size rx + s1.size ry),
               components := s1.components - 1 }, true)

/-- `DisjointSet::get_component_rank(x) = rank[find(x)]` (the `find` call
mutates the state by path compression, hence the returned pair). -/
def DisjointSet.get_component_rank (s : DisjointSet) (x : Nat) : DisjointSet × Nat :=
  let f := s.find x
  (f.1, f.1.rank f.2)

/-- `DisjointSet::get_component_size(x) = size[find(x)]`. -/
def DisjointSet.get_component_size (s : DisjointSet) (x : Nat) : DisjointSet × Nat :=
  let f := s.find x
  (f.1, f.1.size f.2)

/-- `DisjointSet::get_component_number()`. -/
def DisjointSet.get_component_number (s : DisjointSet) : Nat :=
  s.components

/-- `DisjointSet::get_ancestors()`: `find(i)` for every `i` in order
(the state threads through because each `find` compresses paths). -/
def DisjointSet.get_ancestors (s : DisjointSet) : DisjointSet × List Nat :=
  (List.range s.n).foldl
    (fun acc i =>
      let f := acc.1.find i
      (f.1, acc.2 ++ [f.2]))
    (s, [])

/-- `DisjointSet::get_unique_ancestors()`: the same `find` loop inserting
into a `std::set<int>`, returned as the ascending list of distinct roots. -/
def DisjointSet.get_unique_ancestors (s : DisjointSet) : DisjointSet × List Nat :=
  let g := s.get_ancestors
  (g.1, g.2.toFinset.sort (· ≤ ·))

/-- `DisjointSet::add_edges(a, b_array, b_array_size)`: validates the declared
length against the actual one before touching the structure (a `List Nat` is
one-dimensional by construction, so `ndim != 1` cannot arise in the model),
then calls `unite(a, b)` for each `b` in order.  The C++ `throw` is an
`Except.error`: on failure no new state is produced. -/
def DisjointSet.add_edges (s : DisjointSet) (a : Nat) (b_array : List Nat)
    (b_array_size : Nat) : Except String DisjointSet :=
  if b_array.length = b_array_size then
    Except.ok (b_array.foldl (fun t b => (t.unite a b).1) s)
  else
    Except.error "Input array must be 1-dimensional and match the specified size."

/-- Inner loop of the spatial constructors over dimensions `k ∈ [0, cols)`,
with the early `break` once the accumulated squared distance exceeds the
squared threshold: `dist += diff * diff; if (dist > t*t) break;`. -/
def distLoop (buf : Nat → Nat → ℚ) (t : ℚ) (i j : Nat) : List Nat → ℚ → ℚ
  | [], dist => dist
  | k :: ks, dist =>
    let diff := buf i k - buf j k
    let dist' := dist + diff * diff
    if dist' > t * t then dist' else distLoop buf t i j ks dist'

/-- Body of the pair loop of the spatial constructors: accumulate the (possibly
early-exited) squared distance of points `i` and `j` and `unite(i, j)` iff it
is `≤ t*t`. -/
def pairStep (buf : Nat → Nat → ℚ) (t : ℚ) (cols : Nat) (s : DisjointSet)
    (i j : Nat) : DisjointSet :=
  let dist := distLoop buf t i j (List.range cols) 0
  if dist ≤ t * t then (s.unite i j).1 else s

/-- Spatial constructor `DisjointSet(array, unit_dist_threshold)`: fresh
partition of `rows` singletons, then the double loop over pairs `i < j`
(`j` ranges over `[i+1, rows)`). -/
def spatialBuild (buf : Nat → Nat → ℚ) (rows cols : Nat) (t : ℚ) : DisjointSet :=
  (List.range rows).foldl
    (fun s i =>
      (List.range' (i + 1) (rows - (i + 1))).foldl
        (fun s' j => pairStep buf t cols s' i j) s)
    (DisjointSet.new rows)

/-- Full squared Euclidean distance of points `i` and `j` over all `cols`
dimensions, with no early exit.  Spec-side definition used to state the
refinement claims about the pruned loop. -/
def sqDistFull (buf : Nat → Nat → ℚ) (i j cols : Nat) : ℚ :=
  ((List.range cols).map fun k => (buf i k - buf j k) * (buf i k - buf j k)).sum

/-- Modelled from the spec: the unpruned pair-loop body, deciding on the fully
accumulated squared distance; compared against `pairStep` for the early-exit
refinement claim. -/
def pairStepSpec (buf : Nat → Nat → ℚ) (t : ℚ) (cols : Nat) (s : DisjointSet)
    (i j : Nat) : DisjointSet :=
  if sqDistFull buf i j cols ≤ t * t then (s.unite i j).1 else s

/-- Modelled from the spec: the spatial builder with the unpruned inner loop. -/
def spatialBuildSpec (buf : Nat → Nat → ℚ) (rows cols : Nat) (t : ℚ) : DisjointSet :=
  (List.range rows).foldl
    (fun s i =>
      (List.range' (i + 1) (rows - (i + 1))).foldl
        (fun s' j => pairStepSpec buf t cols s' i j) s)
    (DisjointSet.new rows)

/-- Validating spatial constructor `DisjointSet(array, rows, cols, threshold)`:
the supplied buffer comes with its actual shape vector (`ndim` is its length);
`if (buf.ndim != 2 || buf.shape[0] != rows || buf.shape[1] != cols) throw`
happens before any allocation or union, after which the same pair loop runs on
the flat pointer (`ptr[i * cols + k]`). -/
def DisjointSet.newChecked (shape : List Nat) (data : Nat → ℚ)
    (rows cols : Nat) (t : ℚ) : Except String DisjointSet :=
  if shape.length = 2 ∧ shape.getD 0 0 = rows ∧ shape.getD 1 0 = cols then
    Except.ok (spatialBuild (fun i k => data (i * cols + k)) rows cols t)
  else
    Except.error "Input array must be 2-dimensional and match the specified shape."

/-- Root that `find` would return for `x` (the second component of the
embedded `find`), without keeping the compressed state. -/
def DisjointSet.rootD (s : DisjointSet) (x : Nat) : Nat :=
  (findAux s.n s.parent x).2

/-- Well-formedness of the parent/rank arrays: parents stay in range, rank
strictly increases along every non-trivial parent edge, and ranks are below
`n`.  Every state reachable by the public API satisfies this (proved below);
it is exactly what makes the C++ recursion in `find` terminate. -/
def DisjointSet.WF (s : DisjointSet) : Prop :=
  (∀ i < s.n, s.parent i < s.n) ∧
  (∀ i < s.n, s.parent i ≠ i → s.rank i < s.rank (s.parent i)) ∧
  (∀ i < s.n, s.rank i < s.n)

instance (s : DisjointSet) : Decidable s.WF := by
  unfold DisjointSet.WF
  exact inferInstance

/-- The current roots: indices `i < n` with `parent[i] = i`. -/
def roots (s : DisjointSet) : Finset Nat :=
  (Finset.range s.n).filter fun i => s.parent i = i

/-- The component of root `r`: all elements whose `find` resolves to `r`. -/
def componentOf (s : DisjointSet) (r : Nat) : Finset Nat :=
  (Finset.range s.n).filter fun i => s.rootD i = r

/-- Full data-structure invariant: well-formedness, `components` counts the
roots, `size[r]` counts the members of `r`'s component, and the union-by-rank
size bound `2 ^ rank[r] ≤ size[r]` at every root. -/
def Inv (s : DisjointSet) : Prop :=
  s.WF ∧
  s.components = (roots s).card ∧
  (∀ r ∈ roots s, s.size r = (componentOf s r).card) ∧
  (∀ r ∈ roots s, 2 ^ s.rank r ≤ s.size r)

instance (s : DisjointSet) : Decidable (Inv s) := by
  unfold Inv
  exact inferInstance

/-- One public mutating/query call of the API, for stating reachability. -/
inductive Op where
  | find (x : Nat)
  | unite (x y : Nat)
  | getComponentRank (x : Nat)
  | getComponentSize (x : Nat)
  | getAncestors
  | getUniqueAncestors
  | addEdges (a : Nat) (bs : List Nat) (len : Nat)

/-- In-range arguments for one call (the `len` of `add_edges` is free: a
mismatch makes the call fail without touching the state). -/
def opInRange (n : Nat) : Op → Prop
  | .find x => x < n
  | .unite x y => x < n ∧ y < n
  | .getComponentRank x => x < n
  | .getComponentSize x => x < n
  | .getAncestors => True
  | .getUniqueAncestors => True
  | .addEdges a bs _ => a < n ∧ ∀ b ∈ bs, b < n

instance (n : Nat) (op : Op) : Decidable (opInRange n op) := by
  cases op <;> (unfold opInRange) <;> exact inferInstance

/-- State after one public call (a failed `add_edges` leaves the object in its
prior state, as the C++ exception does). -/
def applyOp (s : DisjointSet) : Op → DisjointSet
  | .find x => (s.find x).1
  | .unite x y => (s.unite x y).1
  | .getComponentRank x => (s.get_component_rank x).1
  | .getComponentSize x => (s.get_component_size x).1
  | .getAncestors => s.get_ancestors.1
  | .getUniqueAncestors => s.get_unique_ancestors.1
  | .addEdges a bs len =>
    match s.add_edges a bs len with
    | .ok s' => s'
    | .error _ => s

/-- State after a sequence of public calls. -/
def runOps (s : DisjointSet) (ops : List Op) : DisjointSet :=
  ops.foldl applyOp s

/-- Run a list of `unite` calls, returning the final state and the number of
calls that returned `true`. -/
def runUnites (s : DisjointSet) : List (Nat × Nat) → DisjointSet × Nat
  | [] => (s, 0)
  | (x, y) :: ops =>
    let u := s.unite x y
    let rest := runUnites u.1 ops
    (rest.1, (if u.2 then 1 else 0) + rest.2)

/-- Proof-side abbreviation for the state a successful branch of `unite`
builds: root `a` is attached under root `b`, `b` absorbs `a`'s size, the rank
array becomes `rk` (unchanged, or bumped at `b` on a tie), and `components`
drops by one.  Each of the three merge branches of `unite` is definitionally
of this shape. -/
def attachState (s1 : DisjointSet) (a b : Nat) (rk : Nat → Nat) : DisjointSet where
  parent := Function.update s1.parent a b
  rank := rk
  size := Function.update s1.size b (s1.size b + s1.size a)
  n := s1.n
  components := s1.components - 1

/-! ### Basic lemmas about the parent chain and `findAux` -/

theorem iterate_root_stable (p : Nat → Nat) (x d : Nat)
    (hroot : p (p^[d] x) = p^[d] x) : ∀ e, d ≤ e → p^[e] x = p^[d] x := by
  intro e hde
  obtain ⟨m, rfl⟩ := Nat.exists_eq_add_of_le hde
  induction m with
  | zero => rfl
  | succ m ih =>
    rw [show d + (m + 1) = (d + m) + 1 from rfl, Function.iterate_succ_apply',
      ih (Nat.le_add_right d m), hroot]

theorem findAux_spec (fuel : Nat) : ∀ (p : Nat → Nat) (x d : Nat), d ≤ fuel →
    p (p^[d] x) = p^[d] x →
    (findAux fuel p x).2 = p^[d] x ∧
    (∀ i, (∃ j < d, p^[j] x = i) → (findAux fuel p x).1 i = p^[d] x) ∧
    (∀ i, (∀ j < d, p^[j] x ≠ i) → (findAux fuel p x).1 i = p i) := by
  induction fuel with
  | zero =>
    intro p x d hd hroot
    have hd0 : d = 0 := Nat.le_zero.mp hd
    subst hd0
    refine ⟨rfl, fun i hi => ?_, fun i _ => rfl⟩
    obtain ⟨j, hj, _⟩ := hi
    exact absurd hj (Nat.not_lt_zero j)
  | succ f ih =>
    intro p x d hd hroot
    by_cases hpx : p x = x
    · have hall : ∀ k, p^[k] x = x := fun k => Function.iterate_fixed hpx k
      have hres : findAux (f + 1) p x = (p, x) := by simp [findAux, hpx]
      rw [hres]
      refine ⟨(hall d).symm, fun i hi => ?_, fun i _ => rfl⟩
      obtain ⟨j, _, hji⟩ := hi
      rw [← hji, hall j, hall d]
      exact hpx
    · have hd0 : d ≠ 0 := by
        rintro rfl
        exact hpx hroot
      obtain ⟨e, rfl⟩ : ∃ e, d = e + 1 := ⟨d - 1, (Nat.succ_pred_eq_of_pos (Nat.pos_of_ne_zero hd0)).symm⟩
      have he : e ≤ f := Nat.lt_succ_iff.mp hd
      have hde : p^[e + 1] x = p^[e] (p x) := Function.iterate_succ_apply p e x
      have hroot' : p (p^[e] (p x)) = p^[e] (p x) := by rw [← hde]; exact hroot
      obtain ⟨h2, hon, hoff⟩ := ih p (p x) e he hroot'
      have hres : findAux (f + 1) p x =
          (Function.update (findAux f p (p x)).1 x (findAux f p (p x)).2,
           (findAux f p (p x)).2) := by
        simp [findAux, hpx]
      rw [hres]
      refine ⟨by rw [hde]; exact h2, fun i hi => ?_, fun i hi => ?_⟩
      · by_cases hix : i = x
        · subst hix
          simp only [Function.update_same]
          rw [hde, h2]
        · simp only [Function.update_noteq hix]
          obtain ⟨j, hj, hji⟩ := hi
          have hj' : ∃ j' < e, p^[j'] (p x) = i := by
            cases j with
            | zero =>
              simp only [Function.iterate_zero_apply] at hji
              exact absurd hji.symm hix
            | succ j =>
              exact ⟨j, Nat.lt_of_succ_lt_succ hj, by rw [← Function.iterate_succ_apply]; exact hji⟩
          rw [hon i hj', hde]
      · have hix : i ≠ x := fun h => hi 0 (Nat.succ_pos e) h.symm
        simp only [Function.update_noteq hix]
        refine hoff i fun j hj hji => ?_
        exact hi (j + 1) (Nat.succ_lt_succ hj) (by rw [Function.iterate_succ_apply]; exact hji)

theorem exists_root_aux (s : DisjointSet) (hwf : s.WF) :
    ∀ (m : Nat) (x : Nat), x < s.n → s.n - s.rank x ≤ m →
    ∃ d, s.parent (s.parent^[d] x) = s.parent^[d] x ∧ s.parent^[d] x < s.n ∧
      s.rank x + d ≤ s.rank (s.parent^[d] x) := by
  intro m
  induction m with
  | zero =>
    intro x hx hm
    have := hwf.2.2 x hx
    omega
  | succ m ih =>
    intro x hx hm
    by_cases hpx : s.parent x = x
    · exact ⟨0, by simpa using hpx, by simpa using hx, by simp⟩
    · have hpxn : s.parent x < s.n := hwf.1 x hx
      have hrx : s.rank x < s.rank (s.parent x) := hwf.2.1 x hx hpx
      have hm' : s.n - s.rank (s.parent x) ≤ m := by omega
      obtain ⟨d, h1, h2, h3⟩ := ih (s.parent x) hpxn hm'
      refine ⟨d + 1, ?_, ?_, ?_⟩
      · rw [Function.iterate_succ_apply]; exact h1
      · rw [Function.iterate_succ_apply]; exact h2
      · rw [Function.iterate_succ_apply]; omega

theorem exists_root (s : DisjointSet) (hwf : s.WF) (x : Nat) (hx : x < s.n) :
    ∃ d < s.n, s.parent (s.parent^[d] x) = s.parent^[d] x ∧ s.parent^[d] x < s.n ∧
      s.rank x + d ≤ s.rank (s.parent^[d] x) := by
  obtain ⟨d, h1, h2, h3⟩ := exists_root_aux s hwf (s.n - s.rank x) x hx le_rfl
  have := hwf.2.2 _ h2
  exact ⟨d, by omega, h1, h2, h3⟩

theorem iterate_lt (s : DisjointSet) (hwf : s.WF) (x : Nat) (hx : x < s.n) :
    ∀ k, s.parent^[k] x < s.n := by
  intro k
  induction k with
  | zero => simpa using hx
  | succ k ih => rw [Function.iterate_succ_apply']; exact hwf.1 _ ih

/-! ### Characterisation of `rootD` -/

theorem rootD_of_root (s : DisjointSet) (z : Nat) (hz : s.parent z = z) :
    s.rootD z = z := by
  unfold DisjointSet.rootD
  cases s.n with
  | zero => rfl
  | succ k => simp [findAux, hz]

theorem rootD_spec (s : DisjointSet) (hwf : s.WF) (x : Nat) (hx : x < s.n) :
    s.parent (s.rootD x) = s.rootD x ∧ (∃ k, s.parent^[k] x = s.rootD x) ∧
      s.rootD x < s.n := by
  obtain ⟨d, hd, h1, h2, _⟩ := exists_root s hwf x hx
  have hval := (findAux_spec s.n s.parent x d (le_of_lt hd) h1).1
  unfold DisjointSet.rootD
  rw [hval]
  exact ⟨h1, ⟨d, rfl⟩, h2⟩

theorem root_unique (p : Nat → Nat) (x z1 z2 : Nat) (h1 : p z1 = z1) (h2 : p z2 = z2)
    (r1 : ∃ a, p^[a] x = z1) (r2 : ∃ b, p^[b] x = z2) : z1 = z2 := by
  obtain ⟨a, ha⟩ := r1
  obtain ⟨b, hb⟩ := r2
  rcases Nat.le_total a b with h | h
  · have := iterate_root_stable p x a (by rw [ha]; exact h1) b h
    rw [this, ha] at hb
    exact hb
  · have := iterate_root_stable p x b (by rw [hb]; exact h2) a h
    rw [this, hb] at ha
    exact ha.symm

theorem rootD_eq_iff (s : DisjointSet) (hwf : s.WF) (x : Nat) (hx : x < s.n) (z : Nat) :
    s.rootD x = z ↔ (s.parent z = z ∧ ∃ k, s.parent^[k] x = z) := by
  obtain ⟨hr, hk, _⟩ := rootD_spec s hwf x hx
  constructor
  · rintro rfl
    exact ⟨hr, hk⟩
  · rintro ⟨hz, hkz⟩
    exact root_unique s.parent x _ z hr hz hk hkz

theorem rootD_parent_eq (s : DisjointSet) (hwf : s.WF) (x : Nat) (hx : x < s.n) :
    s.rootD (s.parent x) = s.rootD x := by
  rw [rootD_eq_iff s hwf _ (hwf.1 x hx)]
  obtain ⟨hr, ⟨k, hk⟩, _⟩ := rootD_spec s hwf x hx
  refine ⟨hr, ?_⟩
  cases k with
  | zero =>
    simp only [Function.iterate_zero_apply] at hk
    refine ⟨0, ?_⟩
    simp only [Function.iterate_zero_apply]
    rw [← hk] at hr ⊢
    exact hr
  | succ k =>
    exact ⟨k, by rw [← Function.iterate_succ_apply]; exact hk⟩

theorem rootD_iterate (s : DisjointSet) (hwf : s.WF) (x : Nat) (hx : x < s.n) :
    ∀ k, s.rootD (s.parent^[k] x) = s.rootD x := by
  intro k
  induction k with
  | zero => simp
  | succ k ih =>
    rw [Function.iterate_succ_apply', rootD_parent_eq s hwf _ (iterate_lt s hwf x hx k)]
    exact ih

theorem rank_lt_rootD (s : DisjointSet) (hwf : s.WF) (i : Nat) (hi : i < s.n)
    (hne : i ≠ s.rootD i) : s.rank i < s.rank (s.rootD i) := by
  obtain ⟨d, hd, h1, h2, h3⟩ := exists_root s hwf i hi
  have hval : s.rootD i = s.parent^[d] i := (findAux_spec s.n s.parent i d (le_of_lt hd) h1).1
  cases d with
  | zero =>
    simp only [Function.iterate_zero_apply] at hval
    exact absurd hval.symm hne
  | succ d =>
    rw [hval]
    omega

/-! ### Effect of `find` on the state -/

theorem find_parent_path (s : DisjointSet) (hwf : s.WF) (x : Nat) (hx : x < s.n) (k : Nat) :
    (s.find x).1.parent (s.parent^[k] x) = s.rootD x := by
  obtain ⟨d, hd, hroot, hdn, _⟩ := exists_root s hwf x hx
  obtain ⟨h2, hon, hoff⟩ := findAux_spec s.n s.parent x d (le_of_lt hd) hroot
  have hrd : s.rootD x = s.parent^[d] x := h2
  by_cases hcase : ∃ j < d, s.parent^[j] x = s.parent^[k] x
  · rw [show (s.find x).1.parent = (findAux s.n s.parent x).1 from rfl, hon _ hcase, hrd]
  · push_neg at hcase
    have hkd : d ≤ k := by
      by_contra hlt
      exact hcase k (Nat.lt_of_not_le hlt) rfl
    have hk : s.parent^[k] x = s.parent^[d] x := iterate_root_stable s.parent x d hroot k hkd
    rw [show (s.find x).1.parent = (findAux s.n s.parent x).1 from rfl, hoff _ hcase, hk, hrd]
    exact hroot

theorem find_parent_or (s : DisjointSet) (hwf : s.WF) (x : Nat) (hx : x < s.n) (i : Nat) :
    ((s.find x).1.parent i = s.rootD x ∧ s.rootD i = s.rootD x) ∨
      (s.find x).1.parent i = s.parent i := by
  by_cases hc : ∃ k, s.parent^[k] x = i
  · obtain ⟨k, rfl⟩ := hc
    exact Or.inl ⟨find_parent_path s hwf x hx k, rootD_iterate s hwf x hx k⟩
  · push_neg at hc
    obtain ⟨d, hd, hroot, hdn, _⟩ := exists_root s hwf x hx
    obtain ⟨_, _, hoff⟩ := findAux_spec s.n s.parent x d (le_of_lt hd) hroot
    exact Or.inr (hoff i fun j _ => hc j)

theorem find_roots_iff (s : DisjointSet) (hwf : s.WF) (x : Nat) (hx : x < s.n) (i : Nat) :
    ((s.find x).1.parent i = i ↔ s.parent i = i) := by
  rcases find_parent_or s hwf x hx i with ⟨h1, h2⟩ | h1
  · constructor
    · intro hp
      rw [hp] at h1
      rw [h1]
      exact (rootD_spec s hwf x hx).1
    · intro hp
      rw [h1]
      have := rootD_of_root s i hp
      rw [this] at h2
      exact h2.symm
  · rw [h1]

theorem find_WF (s : DisjointSet) (hwf : s.WF) (x : Nat) (hx : x < s.n) :
    (s.find x).1.WF := by
  obtain ⟨hroot, _, hrn⟩ := rootD_spec s hwf x hx
  refine ⟨fun i hi => ?_, fun i hi hne => ?_, fun i hi => hwf.2.2 i hi⟩
  · rcases find_parent_or s hwf x hx i with ⟨h1, _⟩ | h1
    · rw [h1]; exact hrn
    · rw [h1]; exact hwf.1 i hi
  · rcases find_parent_or s hwf x hx i with ⟨h1, h2⟩ | h1
    · rw [h1]
      rw [h1] at hne
      have : i ≠ s.rootD i := fun h => hne (by rw [← h2, ← h])
      have := rank_lt_rootD s hwf i hi this
      rw [h2] at this
      exact this
    · rw [h1]
      rw [h1] at hne
      exact hwf.2.1 i hi hne

theorem find_rootD_aux (s : DisjointSet) (hwf : s.WF) (x : Nat) (hx : x < s.n) :
    ∀ (m : Nat) (i : Nat), i < s.n → s.n - s.rank i ≤ m →
      (s.find x).1.rootD i = s.rootD i := by
  have hwf' := find_WF s hwf x hx
  intro m
  induction m with
  | zero =>
    intro i hi hm
    have := hwf.2.2 i hi
    omega
  | succ m ih =>
    intro i hi hm
    by_cases hpi : s.parent i = i
    · rw [rootD_of_root _ i ((find_roots_iff s hwf x hx i).mpr hpi), rootD_of_root s i hpi]
    · have hpi' : (s.find x).1.parent i ≠ i := fun h => hpi ((find_roots_iff s hwf x hx i).mp h)
      have step' : (s.find x).1.rootD ((s.find x).1.parent i) = (s.find x).1.rootD i :=
        rootD_parent_eq (s.find x).1 hwf' i hi
      have steps : s.rootD (s.parent i) = s.rootD i := rootD_parent_eq s hwf i hi
      rcases find_parent_or s hwf x hx i with ⟨h1, h2⟩ | h1
      · rw [← step', h1]
        have hr : (s.find x).1.parent (s.rootD x) = s.rootD x :=
          (find_roots_iff s hwf x hx _).mpr (rootD_spec s hwf x hx).1
        rw [rootD_of_root _ _ hr, h2]
      · rw [← step', h1, ← steps]
        have hrk : s.rank i < s.rank (s.parent i) := hwf.2.1 i hi hpi
        exact ih (s.parent i) (hwf.1 i hi) (by omega)

theorem find_rootD_eq (s : DisjointSet) (hwf : s.WF) (x : Nat) (hx : x < s.n)
    (i : Nat) (hi : i < s.n) : (s.find x).1.rootD i = s.rootD i :=
  find_rootD_aux s hwf x hx (s.n - s.rank i) i hi le_rfl

/-! ### Roots and components as finite sets -/

theorem mem_roots_iff (s : DisjointSet) (r : Nat) :
    r ∈ roots s ↔ r < s.n ∧ s.parent r = r := by
  unfold roots
  simp [Finset.mem_filter, Finset.mem_range]

theorem rootD_mem_roots (s : DisjointSet) (hwf : s.WF) (i : Nat) (hi : i < s.n) :
    s.rootD i ∈ roots s := by
  obtain ⟨h1, _, h3⟩ := rootD_spec s hwf i hi
  exact (mem_roots_iff s _).mpr ⟨h3, h1⟩

theorem mem_componentOf_iff (s : DisjointSet) (r i : Nat) :
    i ∈ componentOf s r ↔ i < s.n ∧ s.rootD i = r := by
  unfold componentOf
  simp [Finset.mem_filter, Finset.mem_range]

theorem find_roots_finset (s : DisjointSet) (hwf : s.WF) (x : Nat) (hx : x < s.n) :
    roots (s.find x).1 = roots s := by
  ext i
  rw [mem_roots_iff, mem_roots_iff]
  exact and_congr_right fun _ => find_roots_iff s hwf x hx i

theorem find_componentOf (s : DisjointSet) (hwf : s.WF) (x : Nat) (hx : x < s.n)
    (r : Nat) : componentOf (s.find x).1 r = componentOf s r := by
  ext i
  rw [mem_componentOf_iff, mem_componentOf_iff]
  refine and_congr_right fun hi => ?_
  rw [find_rootD_eq s hwf x hx i hi]

theorem find_Inv (s : DisjointSet) (hinv : Inv s) (x : Nat) (hx : x < s.n) :
    Inv (s.find x).1 := by
  obtain ⟨hwf, hcomp, hsize, hpow⟩ := hinv
  refine ⟨find_WF s hwf x hx, ?_, ?_, ?_⟩
  · show s.components = _
    rw [find_roots_finset s hwf x hx]
    exact hcomp
  · intro r hr
    rw [find_roots_finset s hwf x hx] at hr
    show s.size r = _
    rw [find_componentOf s hwf x hx r]
    exact hsize r hr
  · intro r hr
    rw [find_roots_finset s hwf x hx] at hr
    exact hpow r hr

/-! ### The merge step of `unite` -/

theorem reach_update_of_reach (p : Nat → Nat) (a b : Nat) :
    ∀ (k i : Nat), p^[k] i = a → ∃ m, (Function.update p a b)^[m] i = a := by
  intro k
  induction k with
  | zero =>
    intro i hi
    exact ⟨0, by simpa using hi⟩
  | succ k ih =>
    intro i hi
    by_cases hia : i = a
    · exact ⟨0, by simpa using hia⟩
    · rw [Function.iterate_succ_apply] at hi
      obtain ⟨m, hm⟩ := ih (p i) hi
      refine ⟨m + 1, ?_⟩
      rw [Function.iterate_succ_apply, Function.update_noteq hia]
      exact hm

theorem iterate_update_eq_of_avoid (p : Nat → Nat) (a b : Nat) :
    ∀ (k i : Nat), (∀ j, p^[j] i ≠ a) → (Function.update p a b)^[k] i = p^[k] i := by
  intro k
  induction k with
  | zero => intro i _; rfl
  | succ k ih =>
    intro i hav
    have h0 : i ≠ a := by simpa using hav 0
    rw [Function.iterate_succ_apply, Function.iterate_succ_apply,
      Function.update_noteq h0]
    exact ih (p i) fun j => by
      have := hav (j + 1)
      rwa [Function.iterate_succ_apply] at this

theorem not_reach_of_rootD_ne (s : DisjointSet) (hwf : s.WF) (i : Nat) (hi : i < s.n)
    (a : Nat) (ha : s.parent a = a) (hne : s.rootD i ≠ a) :
    ∀ j, s.parent^[j] i ≠ a := by
  intro j hj
  apply hne
  rw [← rootD_iterate s hwf i hi j, hj, rootD_of_root s a ha]

theorem attach_roots (s1 : DisjointSet) (a b : Nat) (rk : Nat → Nat) (hab : a ≠ b) :
    roots (attachState s1 a b rk) = (roots s1).erase a := by
  ext i
  rw [Finset.mem_erase, mem_roots_iff, mem_roots_iff]
  show (i < s1.n ∧ Function.update s1.parent a b i = i) ↔ _
  by_cases hia : i = a
  · subst hia
    simp [Function.update_same, Ne.symm hab]
  · simp [Function.update_noteq hia, hia]

theorem attach_sizes_le (s1 : DisjointSet) (hinv : Inv s1) (a b : Nat)
    (ha : a ∈ roots s1) (hb : b ∈ roots s1) (hab : a ≠ b) :
    s1.size b + s1.size a ≤ s1.n := by
  obtain ⟨hwf, hcomp, hsize, hpow⟩ := hinv
  rw [hsize a ha, hsize b hb]
  have hdisj : Disjoint (componentOf s1 b) (componentOf s1 a) := by
    rw [Finset.disjoint_left]
    intro i hib hia
    rw [mem_componentOf_iff] at hib hia
    exact hab (hia.2 ▸ hib.2)
  have hsub : componentOf s1 b ∪ componentOf s1 a ⊆ Finset.range s1.n := by
    intro i hi
    rcases Finset.mem_union.mp hi with h | h <;>
      exact Finset.mem_range.mpr ((mem_componentOf_iff s1 _ i).mp h).1
  calc (componentOf s1 b).card + (componentOf s1 a).card
      = (componentOf s1 b ∪ componentOf s1 a).card :=
        (Finset.card_union_of_disjoint hdisj).symm
    _ ≤ (Finset.range s1.n).card := Finset.card_le_card hsub
    _ = s1.n := Finset.card_range s1.n

theorem attach_WF (s1 : DisjointSet) (hinv : Inv s1) (a b : Nat)
    (ha : a ∈ roots s1) (hb : b ∈ roots s1) (hab : a ≠ b) (rk : Nat → Nat)
    (hrk : (rk = s1.rank ∧ s1.rank a < s1.rank b) ∨
           (rk = Function.update s1.rank b (s1.rank b + 1) ∧ s1.rank a = s1.rank b)) :
    (attachState s1 a b rk).WF := by
  obtain ⟨han, hpa⟩ := (mem_roots_iff s1 a).mp ha
  obtain ⟨hbn, hpb⟩ := (mem_roots_iff s1 b).mp hb
  obtain ⟨hwf, hcomp, hsize, hpow⟩ := hinv
  have hbump : s1.rank a = s1.rank b → s1.rank b + 1 < s1.n := by
    intro heq
    have h2 : 2 ^ (s1.rank b + 1) ≤ s1.size b + s1.size a := by
      have hpa' := hpow a ha
      have hpb' := hpow b hb
      rw [heq] at hpa'
      calc 2 ^ (s1.rank b + 1) = 2 ^ s1.rank b + 2 ^ s1.rank b := by ring
        _ ≤ s1.size b + s1.size a := Nat.add_le_add hpb' hpa'
    have hle : s1.size b + s1.size a ≤ s1.n :=
      attach_sizes_le s1 ⟨hwf, hcomp, hsize, hpow⟩ a b ha hb hab
    have := Nat.lt_two_pow (s1.rank b + 1)
    omega
  refine ⟨fun i hi => ?_, fun i hi hne => ?_, fun i hi => ?_⟩
  · show Function.update s1.parent a b i < s1.n
    by_cases hia : i = a
    · subst hia
      rw [Function.update_same]
      exact hbn
    · rw [Function.update_noteq hia]
      exact hwf.1 i hi
  · show rk i < rk (Function.update s1.parent a b i)
    by_cases hia : i = a
    · subst hia
      rw [Function.update_same]
      rcases hrk with ⟨rfl, hlt⟩ | ⟨rfl, heq⟩
      · exact hlt
      · rw [Function.update_noteq hab, Function.update_same]
        omega
    · rw [Function.update_noteq hia]
      rw [show (attachState s1 a b rk).parent i = Function.update s1.parent a b i from rfl,
        Function.update_noteq hia] at hne
      have base : s1.rank i < s1.rank (s1.parent i) := hwf.2.1 i hi hne
      rcases hrk with ⟨rfl, _⟩ | ⟨rfl, heq⟩
      · exact base
      · have hib : i ≠ b := fun h => hne (by rw [h, hpb])
        rw [Function.update_noteq hib]
        by_cases hpib : s1.parent i = b
        · rw [hpib, Function.update_same]
          rw [hpib] at base
          omega
        · rw [Function.update_noteq hpib]
          exact base
  · show rk i < s1.n
    rcases hrk with ⟨rfl, _⟩ | ⟨rfl, heq⟩
    · exact hwf.2.2 i hi
    · by_cases hib : i = b
      · subst hib
        rw [Function.update_same]
        exact hbump heq
      · rw [Function.update_noteq hib]
        exact hwf.2.2 i hi

theorem attach_rootD (s1 : DisjointSet) (hinv : Inv s1) (a b : Nat)
    (ha : a ∈ roots s1) (hb : b ∈ roots s1) (hab : a ≠ b) (rk : Nat → Nat)
    (hrk : (rk = s1.rank ∧ s1.rank a < s1.rank b) ∨
           (rk = Function.update s1.rank b (s1.rank b + 1) ∧ s1.rank a = s1.rank b))
    (i : Nat) (hi : i < s1.n) :
    (attachState s1 a b rk).rootD i = if s1.rootD i = a then b else s1.rootD i := by
  have hwf := hinv.1
  have hwf2 := attach_WF s1 hinv a b ha hb hab rk hrk
  obtain ⟨han, hpa⟩ := (mem_roots_iff s1 a).mp ha
  obtain ⟨hbn, hpb⟩ := (mem_roots_iff s1 b).mp hb
  by_cases hia : s1.rootD i = a
  · rw [if_pos hia, rootD_eq_iff (attachState s1 a b rk) hwf2 i hi b]
    constructor
    · show Function.update s1.parent a b b = b
      rw [Function.update_noteq (Ne.symm hab)]
      exact hpb
    · obtain ⟨k, hk⟩ := (rootD_spec s1 hwf i hi).2.1
      rw [hia] at hk
      obtain ⟨m, hm⟩ := reach_update_of_reach s1.parent a b k i hk
      refine ⟨m + 1, ?_⟩
      show (Function.update s1.parent a b)^[m + 1] i = b
      rw [Function.iterate_succ_apply', hm, Function.update_same]
  · rw [if_neg hia, rootD_eq_iff (attachState s1 a b rk) hwf2 i hi _]
    obtain ⟨hr, ⟨k, hk⟩, hrn⟩ := rootD_spec s1 hwf i hi
    constructor
    · show Function.update s1.parent a b (s1.rootD i) = s1.rootD i
      rw [Function.update_noteq hia]
      exact hr
    · refine ⟨k, ?_⟩
      show (Function.update s1.parent a b)^[k] i = s1.rootD i
      rw [iterate_update_eq_of_avoid s1.parent a b k i
        (not_reach_of_rootD_ne s1 hwf i hi a hpa hia)]
      exact hk

theorem attach_componentOf (s1 : DisjointSet) (hinv : Inv s1) (a b : Nat)
    (ha : a ∈ roots s1) (hb : b ∈ roots s1) (hab : a ≠ b) (rk : Nat → Nat)
    (hrk : (rk = s1.rank ∧ s1.rank a < s1.rank b) ∨
           (rk = Function.update s1.rank b (s1.rank b + 1) ∧ s1.rank a = s1.rank b))
    (r : Nat) (hra : r ≠ a) :
    componentOf (attachState s1 a b rk) r =
      if r = b then componentOf s1 b ∪ componentOf s1 a else componentOf s1 r := by
  ext i
  rw [mem_componentOf_iff]
  show (i < s1.n ∧ _) ↔ _
  by_cases hrb : r = b
  · rw [hrb, if_pos rfl, Finset.mem_union, mem_componentOf_iff, mem_componentOf_iff]
    constructor
    · rintro ⟨hi, hroot⟩
      rw [attach_rootD s1 hinv a b ha hb hab rk hrk i hi] at hroot
      by_cases hia : s1.rootD i = a
      · exact Or.inr ⟨hi, hia⟩
      · rw [if_neg hia] at hroot
        exact Or.inl ⟨hi, hroot⟩
    · rintro (⟨hi, hroot⟩ | ⟨hi, hroot⟩)
      · refine ⟨hi, ?_⟩
        rw [attach_rootD s1 hinv a b ha hb hab rk hrk i hi]
        have hia : s1.rootD i ≠ a := by
          rw [hroot]
          exact Ne.symm hab
        rw [if_neg hia]
        exact hroot
      · refine ⟨hi, ?_⟩
        rw [attach_rootD s1 hinv a b ha hb hab rk hrk i hi, if_pos hroot]
  · rw [if_neg hrb, mem_componentOf_iff]
    constructor
    · rintro ⟨hi, hroot⟩
      rw [attach_rootD s1 hinv a b ha hb hab rk hrk i hi] at hroot
      by_cases hia : s1.rootD i = a
      · rw [if_pos hia] at hroot
        exact absurd hroot.symm hrb
      · rw [if_neg hia] at hroot
        exact ⟨hi, hroot⟩
    · rintro ⟨hi, hroot⟩
      refine ⟨hi, ?_⟩
      rw [attach_rootD s1 hinv a b ha hb hab rk hrk i hi]
      have hia : s1.rootD i ≠ a := by
        rw [hroot]
        exact hra
      rw [if_neg hia]
      exact hroot

theorem componentOf_disjoint (s : DisjointSet) (a b : Nat) (hab : a ≠ b) :
    Disjoint (componentOf s b) (componentOf s a) := by
  rw [Finset.disjoint_left]
  intro i hib hia
  rw [mem_componentOf_iff] at hib hia
  exact hab (hia.2 ▸ hib.2)

theorem attach_Inv (s1 : DisjointSet) (hinv : Inv s1) (a b : Nat)
    (ha : a ∈ roots s1) (hb : b ∈ roots s1) (hab : a ≠ b) (rk : Nat → Nat)
    (hrk : (rk = s1.rank ∧ s1.rank a < s1.rank b) ∨
           (rk = Function.update s1.rank b (s1.rank b + 1) ∧ s1.rank a = s1.rank b)) :
    Inv (attachState s1 a b rk) := by
  obtain ⟨hwf, hcomp, hsize, hpow⟩ := hinv
  have hinv' : Inv s1 := ⟨hwf, hcomp, hsize, hpow⟩
  refine ⟨attach_WF s1 hinv' a b ha hb hab rk hrk, ?_, ?_, ?_⟩
  · show s1.components - 1 = _
    rw [attach_roots s1 a b rk hab, Finset.card_erase_of_mem ha, hcomp]
  · intro r hr
    rw [attach_roots s1 a b rk hab, Finset.mem_erase] at hr
    obtain ⟨hra, hr1⟩ := hr
    rw [attach_componentOf s1 hinv' a b ha hb hab rk hrk r hra]
    show Function.update s1.size b (s1.size b + s1.size a) r = _
    by_cases hrb : r = b
    · rw [hrb, if_pos rfl, Function.update_same,
        Finset.card_union_of_disjoint (componentOf_disjoint s1 a b hab),
        hsize b hb, hsize a ha]
    · rw [if_neg hrb, Function.update_noteq hrb]
      exact hsize r hr1
  · intro r hr
    rw [attach_roots s1 a b rk hab, Finset.mem_erase] at hr
    obtain ⟨hra, hr1⟩ := hr
    show 2 ^ rk r ≤ Function.update s1.size b (s1.size b + s1.size a) r
    by_cases hrb : r = b
    · rw [hrb, Function.update_same]
      rcases hrk with ⟨rfl, _⟩ | ⟨rfl, heq⟩
      · exact le_trans (hpow b hb) (Nat.le_add_right _ _)
      · rw [Function.update_same]
        calc 2 ^ (s1.rank b + 1) = 2 ^ s1.rank b + 2 ^ s1.rank b := by ring
          _ ≤ s1.size b + s1.size a := Nat.add_le_add (hpow b hb) (heq ▸ hpow a ha)
    · rw [Function.update_noteq hrb]
      rcases hrk with ⟨rfl, _⟩ | ⟨rfl, heq⟩
      · exact hpow r hr1
      · rw [Function.update_noteq hrb]
        exact hpow r hr1

/-! ### Case analysis of `unite` -/

theorem find_snd_eq (s : DisjointSet) (x : Nat) : (s.find x).2 = s.rootD x := rfl

theorem unite_ry_eq (s : DisjointSet) (hwf : s.WF) (x y : Nat) (hx : x < s.n)
    (hy : y < s.n) : ((s.find x).1.find y).2 = s.rootD y := by
  have h0 : ((s.find x).1.find y).2 = (s.find x).1.rootD y := rfl
  rw [h0]
  exact find_rootD_eq s hwf x hx y hy

theorem unite_same (s : DisjointSet) (hwf : s.WF) (x y : Nat) (hx : x < s.n)
    (hy : y < s.n) (heq : s.rootD x = s.rootD y) :
    s.unite x y = (((s.find x).1.find y).1, false) := by
  simp only [DisjointSet.unite]
  rw [unite_ry_eq s hwf x y hx hy, find_snd_eq]
  rw [if_pos heq]

theorem unite_lt (s : DisjointSet) (hwf : s.WF) (x y : Nat) (hx : x < s.n)
    (hy : y < s.n) (hne : s.rootD x ≠ s.rootD y)
    (hlt : s.rank (s.rootD x) < s.rank (s.rootD y)) :
    s.unite x y =
      (attachState ((s.find x).1.find y).1 (s.rootD x) (s.rootD y) s.rank, true) := by
  simp only [DisjointSet.unite]
  rw [unite_ry_eq s hwf x y hx hy, find_snd_eq]
  rw [show ((s.find x).1.find y).1.rank = s.rank from rfl]
  rw [if_neg hne, if_pos hlt]
  rfl

theorem unite_gt (s : DisjointSet) (hwf : s.WF) (x y : Nat) (hx : x < s.n)
    (hy : y < s.n) (hne : s.rootD x ≠ s.rootD y)
    (hgt : s.rank (s.rootD y) < s.rank (s.rootD x)) :
    s.unite x y =
      (attachState ((s.find x).1.find y).1 (s.rootD y) (s.rootD x) s.rank, true) := by
  simp only [DisjointSet.unite]
  rw [unite_ry_eq s hwf x y hx hy, find_snd_eq]
  rw [show ((s.find x).1.find y).1.rank = s.rank from rfl]
  rw [if_neg hne, if_neg (Nat.not_lt.mpr (Nat.le_of_lt hgt)), if_pos hgt]
  rfl

theorem unite_tie (s : DisjointSet) (hwf : s.WF) (x y : Nat) (hx : x < s.n)
    (hy : y < s.n) (hne : s.rootD x ≠ s.rootD y)
    (heq : s.rank (s.rootD x) = s.rank (s.rootD y)) :
    s.unite x y =
      (attachState ((s.find x).1.find y).1 (s.rootD y) (s.rootD x)
        (Function.update s.rank (s.rootD x) (s.rank (s.rootD x) + 1)), true) := by
  simp only [DisjointSet.unite]
  rw [unite_ry_eq s hwf x y hx hy, find_snd_eq]
  rw [show ((s.find x).1.find y).1.rank = s.rank from rfl]
  rw [if_neg hne, if_neg (heq ▸ lt_irrefl _), if_neg (heq ▸ lt_irrefl _)]
  rfl

theorem unite_n (s : DisjointSet) (x y : Nat) : (s.unite x y).1.n = s.n := by
  simp only [DisjointSet.unite]
  split
  · rfl
  · split
    · rfl
    · split
      · rfl
      · rfl

theorem unite_rank_mono (s : DisjointSet) (x y : Nat) (j : Nat) :
    s.rank j ≤ (s.unite x y).1.rank j := by
  simp only [DisjointSet.unite]
  split
  · exact Nat.le_refl _
  · split
    · exact Nat.le_refl _
    · split
      · exact Nat.le_refl _
      · show s.rank j ≤ Function.update s.rank (s.find x).2 (s.rank (s.find x).2 + 1) j
        by_cases hj : j = (s.find x).2
        · subst hj
          rw [Function.update_same]
          exact Nat.le_succ _
        · rw [Function.update_noteq hj]

theorem unite_Inv (s : DisjointSet) (hinv : Inv s) (x y : Nat) (hx : x < s.n)
    (hy : y < s.n) : Inv (s.unite x y).1 := by
  have hwf := hinv.1
  have hinv1 := find_Inv s hinv x hx
  have hinv2 := find_Inv (s.find x).1 hinv1 y hy
  have hroots1 : roots ((s.find x).1.find y).1 = roots s := by
    rw [find_roots_finset (s.find x).1 hinv1.1 y hy, find_roots_finset s hwf x hx]
  have hrx : s.rootD x ∈ roots ((s.find x).1.find y).1 := by
    rw [hroots1]
    exact rootD_mem_roots s hwf x hx
  have hry : s.rootD y ∈ roots ((s.find x).1.find y).1 := by
    rw [hroots1]
    exact rootD_mem_roots s hwf y hy
  by_cases hne : s.rootD x = s.rootD y
  · rw [unite_same s hwf x y hx hy hne]
    exact hinv2
  · rcases Nat.lt_trichotomy (s.rank (s.rootD x)) (s.rank (s.rootD y)) with hlt | heq | hgt
    · rw [unite_lt s hwf x y hx hy hne hlt]
      exact attach_Inv _ hinv2 _ _ hrx hry hne s.rank (Or.inl ⟨rfl, hlt⟩)
    · rw [unite_tie s hwf x y hx hy hne heq]
      exact attach_Inv _ hinv2 _ _ hry hrx (Ne.symm hne) _ (Or.inr ⟨rfl, heq.symm⟩)
    · rw [unite_gt s hwf x y hx hy hne hgt]
      exact attach_Inv _ hinv2 _ _ hry hrx (Ne.symm hne) s.rank (Or.inl ⟨rfl, hgt⟩)

theorem unite_snd_iff (s : DisjointSet) (hwf : s.WF) (x y : Nat) (hx : x < s.n)
    (hy : y < s.n) : (s.unite x y).2 = true ↔ s.rootD x ≠ s.rootD y := by
  by_cases hne : s.rootD x = s.rootD y
  · rw [unite_same s hwf x y hx hy hne]
    simp [hne]
  · rcases Nat.lt_trichotomy (s.rank (s.rootD x)) (s.rank (s.rootD y)) with hlt | heq | hgt
    · rw [unite_lt s hwf x y hx hy hne hlt]
      simp [hne]
    · rw [unite_tie s hwf x y hx hy hne heq]
      simp [hne]
    · rw [unite_gt s hwf x y hx hy hne hgt]
      simp [hne]

theorem unite_components_eq (s : DisjointSet) (hinv : Inv s) (x y : Nat)
    (hx : x < s.n) (hy : y < s.n) :
    (s.unite x y).1.components + (if (s.unite x y).2 then 1 else 0) = s.components := by
  have hwf := hinv.1
  have hcard : 1 ≤ (roots s).card :=
    Finset.card_pos.mpr ⟨s.rootD x, rootD_mem_roots s hwf x hx⟩
  have hcomp : 1 ≤ s.components := by
    rw [hinv.2.1]
    exact hcard
  by_cases hne : s.rootD x = s.rootD y
  · rw [unite_same s hwf x y hx hy hne]
    show s.components + (if false = true then 1 else 0) = s.components
    simp
  · rcases Nat.lt_trichotomy (s.rank (s.rootD x)) (s.rank (s.rootD y)) with hlt | heq | hgt
    · rw [unite_lt s hwf x y hx hy hne hlt]
      show s.components - 1 + (if true = true then 1 else 0) = s.components
      rw [if_pos rfl]
      exact Nat.sub_add_cancel hcomp
    · rw [unite_tie s hwf x y hx hy hne heq]
      show s.components - 1 + (if true = true then 1 else 0) = s.components
      rw [if_pos rfl]
      exact Nat.sub_add_cancel hcomp
    · rw [unite_gt s hwf x y hx hy hne hgt]
      show s.components - 1 + (if true = true then 1 else 0) = s.components
      rw [if_pos rfl]
      exact Nat.sub_add_cancel hcomp

theorem unite_rank_char (s : DisjointSet) (hinv : Inv s) (x y : Nat) (hx : x < s.n)
    (hy : y < s.n) :
    (s.unite x y).1.rank =
      if (s.unite x y).2 = true ∧ s.rank (s.rootD x) = s.rank (s.rootD y)
      then Function.update s.rank (s.rootD x) (s.rank (s.rootD x) + 1)
      else s.rank := by
  have hwf := hinv.1
  by_cases hne : s.rootD x = s.rootD y
  · rw [unite_same s hwf x y hx hy hne]
    rw [if_neg]
    · rfl
    · rintro ⟨h2, _⟩
      exact Bool.false_ne_true h2
  · rcases Nat.lt_trichotomy (s.rank (s.rootD x)) (s.rank (s.rootD y)) with hlt | heq | hgt
    · rw [unite_lt s hwf x y hx hy hne hlt]
      rw [if_neg]
      · rfl
      · rintro ⟨_, h2⟩
        omega
    · rw [unite_tie s hwf x y hx hy hne heq]
      rw [if_pos ⟨rfl, heq⟩]
      rfl
    · rw [unite_gt s hwf x y hx hy hne hgt]
      rw [if_neg]
      · rfl
      · rintro ⟨_, h2⟩
        omega

theorem unite_rank_rootD_mono (s : DisjointSet) (hinv : Inv s) (x y : Nat)
    (hx : x < s.n) (hy : y < s.n) (i : Nat) (hi : i < s.n) :
    s.rank (s.rootD i) ≤ (s.unite x y).1.rank ((s.unite x y).1.rootD i) := by
  have hwf := hinv.1
  have hinv1 := find_Inv s hinv x hx
  have hinv2 := find_Inv (s.find x).1 hinv1 y hy
  have hroots1 : roots ((s.find x).1.find y).1 = roots s := by
    rw [find_roots_finset (s.find x).1 hinv1.1 y hy, find_roots_finset s hwf x hx]
  have hrx : s.rootD x ∈ roots ((s.find x).1.find y).1 := by
    rw [hroots1]
    exact rootD_mem_roots s hwf x hx
  have hry : s.rootD y ∈ roots ((s.find x).1.find y).1 := by
    rw [hroots1]
    exact rootD_mem_roots s hwf y hy
  have hrootD1 : ((s.find x).1.find y).1.rootD i = s.rootD i := by
    rw [find_rootD_eq (s.find x).1 hinv1.1 y hy i hi, find_rootD_eq s hwf x hx i hi]
  by_cases hne : s.rootD x = s.rootD y
  · rw [unite_same s hwf x y hx hy hne]
    show s.rank (s.rootD i) ≤ s.rank (((s.find x).1.find y).1.rootD i)
    rw [hrootD1]
  · rcases Nat.lt_trichotomy (s.rank (s.rootD x)) (s.rank (s.rootD y)) with hlt | heq | hgt
    · rw [unite_lt s hwf x y hx hy hne hlt]
      show s.rank (s.rootD i) ≤ s.rank ((attachState _ _ _ s.rank).rootD i)
      rw [attach_rootD _ hinv2 _ _ hrx hry hne s.rank (Or.inl ⟨rfl, hlt⟩) i hi, hrootD1]
      by_cases hia : s.rootD i = s.rootD x
      · rw [if_pos hia, hia]
        exact Nat.le_of_lt hlt
      · rw [if_neg hia]
    · rw [unite_tie s hwf x y hx hy hne heq]
      show s.rank (s.rootD i) ≤
        Function.update s.rank (s.rootD x) (s.rank (s.rootD x) + 1)
          ((attachState ((s.find x).1.find y).1 (s.rootD y) (s.rootD x)
            (Function.update s.rank (s.rootD x) (s.rank (s.rootD x) + 1))).rootD i)
      rw [attach_rootD ((s.find x).1.find y).1 hinv2 (s.rootD y) (s.rootD x) hry hrx
        (Ne.symm hne) (Function.update s.rank (s.rootD x) (s.rank (s.rootD x) + 1))
        (Or.inr ⟨rfl, heq.symm⟩) i hi, hrootD1]
      by_cases hia : s.rootD i = s.rootD y
      · rw [if_pos hia, Function.update_same, hia, heq]
        exact Nat.le_succ _
      · rw [if_neg hia]
        by_cases hib : s.rootD i = s.rootD x
        · rw [hib, Function.update_same]
          exact Nat.le_succ _
        · rw [Function.update_noteq hib]
    · rw [unite_gt s hwf x y hx hy hne hgt]
      show s.rank (s.rootD i) ≤ s.rank ((attachState _ _ _ s.rank).rootD i)
      rw [attach_rootD _ hinv2 _ _ hry hrx (Ne.symm hne) s.rank (Or.inl ⟨rfl, hgt⟩) i hi,
        hrootD1]
      by_cases hia : s.rootD i = s.rootD y
      · rw [if_pos hia, hia]
        exact Nat.le_of_lt hgt
      · rw [if_neg hia]

/-! ### Folds of `find` and `unite` used by the remaining operations -/

theorem findFold_n : ∀ (l : List Nat) (s : DisjointSet),
    (l.foldl (fun t i => (t.find i).1) s).n = s.n := by
  intro l
  induction l with
  | nil => intro s; rfl
  | cons i l ih => intro s; rw [List.foldl_cons]; exact ih _

theorem findFold_rank : ∀ (l : List Nat) (s : DisjointSet),
    (l.foldl (fun t i => (t.find i).1) s).rank = s.rank := by
  intro l
  induction l with
  | nil => intro s; rfl
  | cons i l ih => intro s; rw [List.foldl_cons]; exact ih _

theorem findFold_Inv : ∀ (l : List Nat) (s : DisjointSet), Inv s → (∀ i ∈ l, i < s.n) →
    Inv (l.foldl (fun t i => (t.find i).1) s) := by
  intro l
  induction l with
  | nil => intro s h _; exact h
  | cons i l ih =>
    intro s hinv hall
    rw [List.foldl_cons]
    refine ih _ (find_Inv s hinv i (hall i (List.mem_cons_self i l))) ?_
    intro j hj
    show j < s.n
    exact hall j (List.mem_cons_of_mem i hj)

theorem findFold_rootD : ∀ (l : List Nat) (s : DisjointSet), Inv s → (∀ i ∈ l, i < s.n) →
    ∀ j, j < s.n → (l.foldl (fun t i => (t.find i).1) s).rootD j = s.rootD j := by
  intro l
  induction l with
  | nil => intro s _ _ j _; rfl
  | cons i l ih =>
    intro s hinv hall j hj
    rw [List.foldl_cons]
    have h1 := ih (s.find i).1 (find_Inv s hinv i (hall i (List.mem_cons_self i l)))
      (fun k hk => hall k (List.mem_cons_of_mem i hk)) j hj
    rw [h1, find_rootD_eq s hinv.1 i (hall i (List.mem_cons_self i l)) j hj]

theorem ancFold_state : ∀ (l : List Nat) (s : DisjointSet) (acc : List Nat),
    (l.foldl (fun a i => let f := a.1.find i; (f.1, a.2 ++ [f.2])) (s, acc)).1 =
      l.foldl (fun t i => (t.find i).1) s := by
  intro l
  induction l with
  | nil => intro s acc; rfl
  | cons i l ih => intro s acc; rw [List.foldl_cons, List.foldl_cons]; exact ih _ _

theorem get_ancestors_state (s : DisjointSet) :
    s.get_ancestors.1 = (List.range s.n).foldl (fun t i => (t.find i).1) s :=
  ancFold_state (List.range s.n) s []

theorem uniteFold_n : ∀ (bs : List Nat) (s : DisjointSet) (a : Nat),
    (bs.foldl (fun t b => (t.unite a b).1) s).n = s.n := by
  intro bs
  induction bs with
  | nil => intro s a; rfl
  | cons b bs ih =>
    intro s a
    rw [List.foldl_cons]
    exact (ih _ _).trans (unite_n s a b)

theorem uniteFold_Inv : ∀ (bs : List Nat) (s : DisjointSet) (a : Nat),
    Inv s → a < s.n → (∀ b ∈ bs, b < s.n) →
    Inv (bs.foldl (fun t b => (t.unite a b).1) s) := by
  intro bs
  induction bs with
  | nil => intro s a h _ _; exact h
  | cons b bs ih =>
    intro s a hinv ha hall
    rw [List.foldl_cons]
    have hb := hall b (List.mem_cons_self b bs)
    refine ih _ _ (unite_Inv s hinv a b ha hb) ?_ ?_
    · rw [unite_n]
      exact ha
    · intro b' hb'
      rw [unite_n]
      exact hall b' (List.mem_cons_of_mem b hb')

theorem uniteFold_rank_mono : ∀ (bs : List Nat) (s : DisjointSet) (a j : Nat),
    s.rank j ≤ (bs.foldl (fun t b => (t.unite a b).1) s).rank j := by
  intro bs
  induction bs with
  | nil => intro s a j; exact Nat.le_refl _
  | cons b bs ih =>
    intro s a j
    rw [List.foldl_cons]
    exact Nat.le_trans (unite_rank_mono s a b j) (ih _ _ _)

theorem uniteFold_rank_rootD_mono : ∀ (bs : List Nat) (s : DisjointSet) (a : Nat),
    Inv s → a < s.n → (∀ b ∈ bs, b < s.n) → ∀ i, i < s.n →
    s.rank (s.rootD i) ≤
      (bs.foldl (fun t b => (t.unite a b).1) s).rank
        ((bs.foldl (fun t b => (t.unite a b).1) s).rootD i) := by
  intro bs
  induction bs with
  | nil => intro s a _ _ _ i _; exact Nat.le_refl _
  | cons b bs ih =>
    intro s a hinv ha hall i hi
    rw [List.foldl_cons]
    have hb := hall b (List.mem_cons_self b bs)
    refine Nat.le_trans (unite_rank_rootD_mono s hinv a b ha hb i hi)
      (ih _ _ (unite_Inv s hinv a b ha hb) ?_ ?_ i ?_)
    · rw [unite_n]
      exact ha
    · intro b' hb'
      rw [unite_n]
      exact hall b' (List.mem_cons_of_mem b hb')
    · rw [unite_n]
      exact hi

/-! ### One public call and sequences of calls -/

theorem applyOp_n (s : DisjointSet) (op : Op) : (applyOp s op).n = s.n := by
  cases op with
  | find x => rfl
  | unite x y => exact unite_n s x y
  | getComponentRank x => rfl
  | getComponentSize x => rfl
  | getAncestors =>
    show s.get_ancestors.1.n = s.n
    rw [get_ancestors_state]
    exact findFold_n _ s
  | getUniqueAncestors =>
    show s.get_ancestors.1.n = s.n
    rw [get_ancestors_state]
    exact findFold_n _ s
  | addEdges a bs len =>
    show (match s.add_edges a bs len with | .ok s' => s' | .error _ => s).n = s.n
    by_cases hlen : bs.length = len
    · unfold DisjointSet.add_edges
      rw [if_pos hlen]
      exact uniteFold_n bs s a
    · unfold DisjointSet.add_edges
      rw [if_neg hlen]

theorem applyOp_Inv (s : DisjointSet) (op : Op) (hinv : Inv s)
    (hop : opInRange s.n op) : Inv (applyOp s op) := by
  cases op with
  | find x => exact find_Inv s hinv x hop
  | unite x y => exact unite_Inv s hinv x y hop.1 hop.2
  | getComponentRank x => exact find_Inv s hinv x hop
  | getComponentSize x => exact find_Inv s hinv x hop
  | getAncestors =>
    show Inv s.get_ancestors.1
    rw [get_ancestors_state]
    exact findFold_Inv _ s hinv fun i hi => List.mem_range.mp hi
  | getUniqueAncestors =>
    show Inv s.get_ancestors.1
    rw [get_ancestors_state]
    exact findFold_Inv _ s hinv fun i hi => List.mem_range.mp hi
  | addEdges a bs len =>
    show Inv (match s.add_edges a bs len with | .ok s' => s' | .error _ => s)
    by_cases hlen : bs.length = len
    · unfold DisjointSet.add_edges
      rw [if_pos hlen]
      exact uniteFold_Inv bs s a hinv hop.1 hop.2
    · unfold DisjointSet.add_edges
      rw [if_neg hlen]
      exact hinv

theorem applyOp_rank_mono (s : DisjointSet) (op : Op) (j : Nat) :
    s.rank j ≤ (applyOp s op).rank j := by
  cases op with
  | find x => exact Nat.le_refl _
  | unite x y => exact unite_rank_mono s x y j
  | getComponentRank x => exact Nat.le_refl _
  | getComponentSize x => exact Nat.le_refl _
  | getAncestors =>
    show s.rank j ≤ s.get_ancestors.1.rank j
    rw [get_ancestors_state, findFold_rank]
  | getUniqueAncestors =>
    show s.rank j ≤ s.get_ancestors.1.rank j
    rw [get_ancestors_state, findFold_rank]
  | addEdges a bs len =>
    show s.rank j ≤ (match s.add_edges a bs len with | .ok s' => s' | .error _ => s).rank j
    by_cases hlen : bs.length = len
    · unfold DisjointSet.add_edges
      rw [if_pos hlen]
      exact uniteFold_rank_mono bs s a j
    · unfold DisjointSet.add_edges
      rw [if_neg hlen]

theorem applyOp_rank_rootD_mono (s : DisjointSet) (op : Op) (hinv : Inv s)
    (hop : opInRange s.n op) (i : Nat) (hi : i < s.n) :
    s.rank (s.rootD i) ≤ (applyOp s op).rank ((applyOp s op).rootD i) := by
  cases op with
  | find x =>
    show s.rank (s.rootD i) ≤ (s.find x).1.rank ((s.find x).1.rootD i)
    rw [find_rootD_eq s hinv.1 x hop i hi]
    exact Nat.le_refl _
  | unite x y => exact unite_rank_rootD_mono s hinv x y hop.1 hop.2 i hi
  | getComponentRank x =>
    show s.rank (s.rootD i) ≤ (s.find x).1.rank ((s.find x).1.rootD i)
    rw [find_rootD_eq s hinv.1 x hop i hi]
    exact Nat.le_refl _
  | getComponentSize x =>
    show s.rank (s.rootD i) ≤ (s.find x).1.rank ((s.find x).1.rootD i)
    rw [find_rootD_eq s hinv.1 x hop i hi]
    exact Nat.le_refl _
  | getAncestors =>
    show s.rank (s.rootD i) ≤ s.get_ancestors.1.rank (s.get_ancestors.1.rootD i)
    rw [get_ancestors_state, findFold_rank,
      findFold_rootD _ s hinv (fun k hk => List.mem_range.mp hk) i hi]
  | getUniqueAncestors =>
    show s.rank (s.rootD i) ≤ s.get_ancestors.1.rank (s.get_ancestors.1.rootD i)
    rw [get_ancestors_state, findFold_rank,
      findFold_rootD _ s hinv (fun k hk => List.mem_range.mp hk) i hi]
  | addEdges a bs len =>
    show s.rank (s.rootD i) ≤
      (match s.add_edges a bs len with | .ok s' => s' | .error _ => s).rank
        ((match s.add_edges a bs len with | .ok s' => s' | .error _ => s).rootD i)
    by_cases hlen : bs.length = len
    · unfold DisjointSet.add_edges
      rw [if_pos hlen]
      exact uniteFold_rank_rootD_mono bs s a hinv hop.1 hop.2 i hi
    · unfold DisjointSet.add_edges
      rw [if_neg hlen]

theorem runOps_n : ∀ (ops : List Op) (s : DisjointSet), (runOps s ops).n = s.n := by
  intro ops
  induction ops with
  | nil => intro s; rfl
  | cons op ops ih =>
    intro s
    show (runOps (applyOp s op) ops).n = s.n
    rw [ih _, applyOp_n]

theorem runOps_Inv : ∀ (ops : List Op) (s : DisjointSet), Inv s →
    (∀ op ∈ ops, opInRange s.n op) → Inv (runOps s ops) := by
  intro ops
  induction ops with
  | nil => intro s h _; exact h
  | cons op ops ih =>
    intro s hinv hall
    show Inv (runOps (applyOp s op) ops)
    refine ih _ (applyOp_Inv s op hinv (hall op (List.mem_cons_self op ops))) ?_
    intro op' hop'
    rw [applyOp_n]
    exact hall op' (List.mem_cons_of_mem op hop')

theorem runOps_rank_mono : ∀ (ops : List Op) (s : DisjointSet) (j : Nat),
    s.rank j ≤ (runOps s ops).rank j := by
  intro ops
  induction ops with
  | nil => intro s j; exact Nat.le_refl _
  | cons op ops ih =>
    intro s j
    show s.rank j ≤ (runOps (applyOp s op) ops).rank j
    exact Nat.le_trans (applyOp_rank_mono s op j) (ih _ j)

theorem runOps_rank_rootD_mono : ∀ (ops : List Op) (s : DisjointSet), Inv s →
    (∀ op ∈ ops, opInRange s.n op) → ∀ i, i < s.n →
    s.rank (s.rootD i) ≤ (runOps s ops).rank ((runOps s ops).rootD i) := by
  intro ops
  induction ops with
  | nil => intro s _ _ i _; exact Nat.le_refl _
  | cons op ops ih =>
    intro s hinv hall i hi
    show s.rank (s.rootD i) ≤ (runOps (applyOp s op) ops).rank ((runOps (applyOp s op) ops).rootD i)
    refine Nat.le_trans (applyOp_rank_rootD_mono s op hinv (hall op (List.mem_cons_self op ops)) i hi)
      (ih _ (applyOp_Inv s op hinv (hall op (List.mem_cons_self op ops))) ?_ i ?_)
    · intro op' hop'
      rw [applyOp_n]
      exact hall op' (List.mem_cons_of_mem op hop')
    · rw [applyOp_n]
      exact hi

/-! ### The freshly constructed state and size conservation -/

theorem new_WF (n : Nat) : (DisjointSet.new n).WF := by
  refine ⟨fun i hi => hi, fun i hi hne => absurd rfl hne, fun i hi => ?_⟩
  show 0 < n
  exact Nat.lt_of_le_of_lt (Nat.zero_le i) hi

theorem new_rootD (n : Nat) (i : Nat) : (DisjointSet.new n).rootD i = i :=
  rootD_of_root _ i rfl

theorem new_Inv (n : Nat) : Inv (DisjointSet.new n) := by
  refine ⟨new_WF n, ?_, ?_, ?_⟩
  · show n = (roots (DisjointSet.new n)).card
    have h : roots (DisjointSet.new n) = Finset.range n := by
      ext i
      rw [mem_roots_iff]
      constructor
      · rintro ⟨hi, _⟩
        exact Finset.mem_range.mpr hi
      · intro hi
        exact ⟨Finset.mem_range.mp hi, rfl⟩
    rw [h, Finset.card_range]
  · intro r hr
    obtain ⟨hrn, _⟩ := (mem_roots_iff _ r).mp hr
    show 1 = (componentOf (DisjointSet.new n) r).card
    have h : componentOf (DisjointSet.new n) r = {r} := by
      ext i
      rw [mem_componentOf_iff, Finset.mem_singleton]
      constructor
      · rintro ⟨_, hroot⟩
        rw [new_rootD] at hroot
        exact hroot
      · intro hi
        subst hi
        exact ⟨hrn, new_rootD n i⟩
    rw [h, Finset.card_singleton]
  · intro r hr
    show 2 ^ 0 ≤ 1
    rw [pow_zero]

theorem sum_size_roots (s : DisjointSet) (hinv : Inv s) :
    (∑ r ∈ roots s, s.size r) = s.n := by
  rw [Finset.sum_congr rfl hinv.2.2.1]
  have hmap : ∀ i ∈ Finset.range s.n, s.rootD i ∈ roots s := fun i hi =>
    rootD_mem_roots s hinv.1 i (Finset.mem_range.mp hi)
  have h := Finset.card_eq_sum_card_fiberwise hmap
  rw [Finset.card_range] at h
  exact h.symm

/-! ### The spatial pair loop: early exit versus full accumulation -/

theorem sq_sum_nonneg (buf : Nat → Nat → ℚ) (i j : Nat) (ks : List Nat) :
    0 ≤ ((ks.map fun k => (buf i k - buf j k) * (buf i k - buf j k)).sum) := by
  induction ks with
  | nil => simp
  | cons k ks ih =>
    simp only [List.map_cons, List.sum_cons]
    have := mul_self_nonneg (buf i k - buf j k)
    linarith

theorem distLoop_le_iff (buf : Nat → Nat → ℚ) (t : ℚ) (i j : Nat) :
    ∀ (ks : List Nat) (d : ℚ),
      (distLoop buf t i j ks d ≤ t * t ↔
        d + ((ks.map fun k => (buf i k - buf j k) * (buf i k - buf j k)).sum) ≤ t * t) := by
  intro ks
  induction ks with
  | nil =>
    intro d
    simp [distLoop]
  | cons k ks ih =>
    intro d
    simp only [distLoop, List.map_cons, List.sum_cons]
    by_cases hgt : d + (buf i k - buf j k) * (buf i k - buf j k) > t * t
    · rw [if_pos hgt]
      constructor
      · intro hle
        exact absurd hle (not_le.mpr hgt)
      · intro hle
        exfalso
        have hrest := sq_sum_nonneg buf i j ks
        linarith
    · rw [if_neg hgt]
      rw [ih]
      constructor
      · intro hle
        linarith
      · intro hle
        linarith

theorem pairStep_eq_spec (buf : Nat → Nat → ℚ) (t : ℚ) (cols : Nat) (s : DisjointSet)
    (i j : Nat) : pairStep buf t cols s i j = pairStepSpec buf t cols s i j := by
  unfold pairStep pairStepSpec
  have h := distLoop_le_iff buf t i j (List.range cols) 0
  by_cases hle : distLoop buf t i j (List.range cols) 0 ≤ t * t
  · rw [if_pos hle]
    have h2 : sqDistFull buf i j cols ≤ t * t := by
      have h3 := h.mp hle
      rw [zero_add] at h3
      exact h3
    rw [if_pos h2]
  · rw [if_neg hle]
    have h2 : ¬sqDistFull buf i j cols ≤ t * t := by
      intro hc
      exact hle (h.mpr (by rw [zero_add]; exact hc))
    rw [if_neg h2]

theorem spatialBuild_eq_spec (buf : Nat → Nat → ℚ) (rows cols : Nat) (t : ℚ) :
    spatialBuild buf rows cols t = spatialBuildSpec buf rows cols t := by
  unfold spatialBuild spatialBuildSpec
  have h : (fun (s : DisjointSet) i =>
      (List.range' (i + 1) (rows - (i + 1))).foldl
        (fun s' j => pairStep buf t cols s' i j) s) =
      (fun (s : DisjointSet) i =>
        (List.range' (i + 1) (rows - (i + 1))).foldl
          (fun s' j => pairStepSpec buf t cols s' i j) s) := by
    funext s i
    have h2 : (fun (s' : DisjointSet) j => pairStep buf t cols s' i j) =
        (fun (s' : DisjointSet) j => pairStepSpec buf t cols s' i j) := by
      funext s' j
      exact pairStep_eq_spec buf t cols s' i j
    rw [h2]
  rw [h]

/-! ### Counting successful `unite` calls -/

theorem runUnites_spec (n : Nat) : ∀ (ops : List (Nat × Nat)) (s : DisjointSet),
    Inv s → s.n = n → (∀ pr ∈ ops, pr.1 < n ∧ pr.2 < n) →
    Inv (runUnites s ops).1 ∧ (runUnites s ops).1.n = n ∧
      (runUnites s ops).1.components + (runUnites s ops).2 = s.components := by
  intro ops
  induction ops with
  | nil =>
    intro s hinv hn _
    exact ⟨hinv, hn, by simp [runUnites]⟩
  | cons pr ops ih =>
    intro s hinv hn hall
    obtain ⟨x, y⟩ := pr
    have hx : x < s.n := by
      rw [hn]
      exact (hall (x, y) (List.mem_cons_self _ _)).1
    have hy : y < s.n := by
      rw [hn]
      exact (hall (x, y) (List.mem_cons_self _ _)).2
    have hu : Inv (s.unite x y).1 := unite_Inv s hinv x y hx hy
    have hun : (s.unite x y).1.n = n := by rw [unite_n, hn]
    obtain ⟨h1, h2, h3⟩ := ih (s.unite x y).1 hu hun
      (fun pr hpr => hall pr (List.mem_cons_of_mem _ hpr))
    refine ⟨h1, h2, ?_⟩
    have hc := unite_components_eq s hinv x y hx hy
    show (runUnites (s.unite x y).1 ops).1.components +
      ((if (s.unite x y).2 then 1 else 0) + (runUnites (s.unite x y).1 ops).2) = s.components
    omega

theorem q_arith : (3 : ℚ) * 3 = 2 * 2 + 5 := by norm_num

/-! ### Invariant of the spatially constructed partition -/

theorem pairStep_n (buf : Nat → Nat → ℚ) (t : ℚ) (cols : Nat) (s : DisjointSet)
    (i j : Nat) : (pairStep buf t cols s i j).n = s.n := by
  simp only [pairStep]
  split
  · exact unite_n s i j
  · rfl

theorem pairStep_Inv (buf : Nat → Nat → ℚ) (t : ℚ) (cols : Nat) (s : DisjointSet)
    (hinv : Inv s) (i j : Nat) (hi : i < s.n) (hj : j < s.n) :
    Inv (pairStep buf t cols s i j) := by
  simp only [pairStep]
  split
  · exact unite_Inv s hinv i j hi hj
  · exact hinv

theorem pairFold_n (buf : Nat → Nat → ℚ) (t : ℚ) (cols : Nat) :
    ∀ (l : List Nat) (s : DisjointSet) (i : Nat),
    (l.foldl (fun s' j => pairStep buf t cols s' i j) s).n = s.n := by
  intro l
  induction l with
  | nil => intro s i; rfl
  | cons j l ih =>
    intro s i
    rw [List.foldl_cons]
    exact (ih _ _).trans (pairStep_n buf t cols s i j)

theorem pairFold_Inv (buf : Nat → Nat → ℚ) (t : ℚ) (cols : Nat) :
    ∀ (l : List Nat) (s : DisjointSet) (i : Nat), Inv s → i < s.n →
    (∀ j ∈ l, j < s.n) →
    Inv (l.foldl (fun s' j => pairStep buf t cols s' i j) s) := by
  intro l
  induction l with
  | nil => intro s i h _ _; exact h
  | cons j l ih =>
    intro s i hinv hi hall
    rw [List.foldl_cons]
    have hj := hall j (List.mem_cons_self j l)
    refine ih _ i (pairStep_Inv buf t cols s hinv i j hi hj) ?_ ?_
    · rw [pairStep_n]
      exact hi
    · intro j' hj'
      rw [pairStep_n]
      exact hall j' (List.mem_cons_of_mem j hj')

theorem outerFold_n (buf : Nat → Nat → ℚ) (t : ℚ) (cols rows : Nat) :
    ∀ (l : List Nat) (s : DisjointSet),
    (l.foldl (fun s i =>
      (List.range' (i + 1) (rows - (i + 1))).foldl
        (fun s' j => pairStep buf t cols s' i j) s) s).n = s.n := by
  intro l
  induction l with
  | nil => intro s; rfl
  | cons i l ih =>
    intro s
    rw [List.foldl_cons]
    exact (ih _).trans (pairFold_n buf t cols _ s i)

theorem outerFold_Inv (buf : Nat → Nat → ℚ) (t : ℚ) (cols rows : Nat) :
    ∀ (l : List Nat) (s : DisjointSet), Inv s → s.n = rows → (∀ i ∈ l, i < rows) →
    Inv (l.foldl (fun s i =>
      (List.range' (i + 1) (rows - (i + 1))).foldl
        (fun s' j => pairStep buf t cols s' i j) s) s) := by
  intro l
  induction l with
  | nil => intro s h _ _; exact h
  | cons i l ih =>
    intro s hinv hn hall
    rw [List.foldl_cons]
    have hi : i < s.n := by rw [hn]; exact hall i (List.mem_cons_self i l)
    have hjs : ∀ j ∈ List.range' (i + 1) (rows - (i + 1)), j < s.n := by
      intro j hj
      rw [List.mem_range'_1] at hj
      rw [hn]
      omega
    refine ih _ (pairFold_Inv buf t cols _ s i hinv hi hjs) ?_ ?_
    · rw [pairFold_n]
      exact hn
    · intro i' hi'
      exact hall i' (List.mem_cons_of_mem i hi')

theorem spatialBuild_n (buf : Nat → Nat → ℚ) (rows cols : Nat) (t : ℚ) :
    (spatialBuild buf rows cols t).n = rows := by
  unfold spatialBuild
  exact outerFold_n buf t cols rows (List.range rows) (DisjointSet.new rows)

theorem spatialBuild_Inv (buf : Nat → Nat → ℚ) (rows cols : Nat) (t : ℚ) :
    Inv (spatialBuild buf rows cols t) := by
  unfold spatialBuild
  exact outerFold_Inv buf t cols rows (List.range rows) (DisjointSet.new rows)
    (new_Inv rows) rfl (fun i hi => List.mem_range.mp hi)

/-! ### The claims -/

/-- Claim C5: for every pair `(i, j)`, the early-exit accumulation reaches the
same unite/no-unite decision as the full squared distance over all `cols`
dimensions (a partial sum of squares exceeding `t*t` forces the full sum to
exceed it), so the pruned builder and the unpruned spec-side builder produce
identical partitions. -/
theorem claim_C5 (buf : Nat → Nat → ℚ) (t : ℚ) (rows cols : Nat) :
    spatialBuild buf rows cols t = spatialBuildSpec buf rows cols t ∧
    (∀ (s : DisjointSet) (i j : Nat),
      pairStep buf t cols s i j = pairStepSpec buf t cols s i j) ∧
    (∀ i j, distLoop buf t i j (List.range cols) 0 ≤ t * t ↔
      sqDistFull buf i j cols ≤ t * t) := by
  refine ⟨spatialBuild_eq_spec buf rows cols t,
    fun s i j => pairStep_eq_spec buf t cols s i j, fun i j => ?_⟩
  have h := distLoop_le_iff buf t i j (List.range cols) 0
  rw [zero_add] at h
  exact h

/-- Claim C6: the spatial builder's threshold test is inclusive on the squared
distance: a pair at squared distance exactly `t*t` is united, a pair at
squared distance `t*t + eps` with `eps > 0` is not united; only squared
quantities are ever compared (no square root appears in the embedding). -/
theorem claim_C6 (buf : Nat → Nat → ℚ) (t : ℚ) (cols : Nat) (s : DisjointSet)
    (i j : Nat) :
    (sqDistFull buf i j cols = t * t → pairStep buf t cols s i j = (s.unite i j).1) ∧
    (∀ eps : ℚ, 0 < eps → sqDistFull buf i j cols = t * t + eps →
      pairStep buf t cols s i j = s) := by
  constructor
  · intro h
    rw [pairStep_eq_spec buf t cols s i j]
    unfold pairStepSpec
    rw [if_pos (le_of_eq h)]
  · intro eps heps h
    rw [pairStep_eq_spec buf t cols s i j]
    unfold pairStepSpec
    have hn : ¬sqDistFull buf i j cols ≤ t * t := by
      rw [h]
      intro hc
      linarith
    rw [if_neg hn]

/-- Witness for C6 at two 1-dimensional points `0` and `3`: with threshold `3`
the squared distance is exactly `3*3` and the pair is united; with threshold
`2` the squared distance is `2*2 + 5` and the pair is left alone. -/
theorem claim_C6_witness :
    pairStep (fun i _ => if i = 0 then 0 else 3) 3 1 (DisjointSet.new 2) 0 1 =
      ((DisjointSet.new 2).unite 0 1).1 ∧
    pairStep (fun i _ => if i = 0 then 0 else 3) 2 1 (DisjointSet.new 2) 0 1 =
      DisjointSet.new 2 := by
  constructor
  · exact (claim_C6 (fun i _ => if i = 0 then 0 else 3) 3 1 (DisjointSet.new 2) 0 1).1
      (by simp [sqDistFull, List.range_succ])
  · exact (claim_C6 (fun i _ => if i = 0 then 0 else 3) 2 1 (DisjointSet.new 2) 0 1).2 5
      (by simp) (by simp [sqDistFull, List.range_succ, q_arith])

/-- Claim C8: the validating spatial constructor rejects an array whose actual
shape disagrees with the declared `(rows, cols)` before building anything (no
partition value is produced), and `add_edges` rejects a neighbour array whose
actual length disagrees with the declared one before any `unite` (the prior
state is returned unchanged to the caller). -/
theorem claim_C8 (shape : List Nat) (data : Nat → ℚ) (rows cols : Nat) (t : ℚ)
    (hbad : ¬(shape.length = 2 ∧ shape.getD 0 0 = rows ∧ shape.getD 1 0 = cols))
    (s : DisjointSet) (a : Nat) (bs : List Nat) (len : Nat)
    (hlen : bs.length ≠ len) :
    DisjointSet.newChecked shape data rows cols t =
      Except.error "Input array must be 2-dimensional and match the specified shape." ∧
    s.add_edges a bs len =
      Except.error "Input array must be 1-dimensional and match the specified size." := by
  constructor
  · unfold DisjointSet.newChecked
    rw [if_neg hbad]
  · unfold DisjointSet.add_edges
    rw [if_neg hlen]

/-- Witness for C8: a 1-dimensional shape vector against declared `(2, 2)`,
and a 1-element neighbour list declared as length `2`. -/
theorem claim_C8_witness :
    DisjointSet.newChecked [3] (fun _ => 0) 2 2 1 =
      Except.error "Input array must be 2-dimensional and match the specified shape." ∧
    (DisjointSet.new 1).add_edges 0 [0] 2 =
      Except.error "Input array must be 1-dimensional and match the specified size." :=
  claim_C8 [3] (fun _ => 0) 2 2 1 (by decide) (DisjointSet.new 1) 0 [0] 2 (by decide)

/-- Claim C2: a fresh partition of `n` singletons has `componentCount = n`;
every `unite` returning `true` decrements `componentCount` by exactly `1` and
every `unite` returning `false` leaves it unchanged; hence after a sequence of
unite calls containing `k` successful ones, `get_component_number` returns
`n - k`. -/
theorem claim_C2 (n : Nat) (ops : List (Nat × Nat))
    (hops : ∀ pr ∈ ops, pr.1 < n ∧ pr.2 < n) :
    (DisjointSet.new n).get_component_number = n ∧
    (∀ (s : DisjointSet), Inv s → s.n = n → ∀ x, x < n → ∀ y, y < n →
      (s.unite x y).1.components + (if (s.unite x y).2 then 1 else 0) =
        s.components) ∧
    (runUnites (DisjointSet.new n) ops).1.get_component_number +
      (runUnites (DisjointSet.new n) ops).2 = n := by
  refine ⟨rfl, ?_, ?_⟩
  · intro s hinv hn x hx y hy
    exact unite_components_eq s hinv x y (by rw [hn]; exact hx) (by rw [hn]; exact hy)
  · exact (runUnites_spec n ops (DisjointSet.new n) (new_Inv n) rfl hops).2.2

/-- Witness for C2: on 5 singletons, the sequence `unite(0,1)`, `unite(1,2)`,
`unite(0,2)` has two successful calls, and the component number plus the
success count is 5. -/
theorem claim_C2_witness :
    (runUnites (DisjointSet.new 5) [(0, 1), (1, 2), (0, 2)]).1.get_component_number +
      (runUnites (DisjointSet.new 5) [(0, 1), (1, 2), (0, 2)]).2 = 5 :=
  (claim_C2 5 [(0, 1), (1, 2), (0, 2)] (by decide)).2.2

/-- Claim C9: in every state reached from a fresh partition of `n` singletons
by a sequence of in-range public calls, the sizes stored at the current roots
sum to `n`, and the size stored at each root is the cardinality of its
component. -/
theorem claim_C9 (n : Nat) (ops : List Op) (hops : ∀ op ∈ ops, opInRange n op) :
    (∑ r ∈ roots (runOps (DisjointSet.new n) ops),
      (runOps (DisjointSet.new n) ops).size r) = n ∧
    (∀ r ∈ roots (runOps (DisjointSet.new n) ops),
      (runOps (DisjointSet.new n) ops).size r =
        (componentOf (runOps (DisjointSet.new n) ops) r).card) ∧
    (∀ (buf : Nat → Nat → ℚ) (t : ℚ) (rows cols : Nat) (ops' : List Op),
      (∀ op ∈ ops', opInRange rows op) →
      (∑ r ∈ roots (runOps (spatialBuild buf rows cols t) ops'),
        (runOps (spatialBuild buf rows cols t) ops').size r) = rows ∧
      ∀ r ∈ roots (runOps (spatialBuild buf rows cols t) ops'),
        (runOps (spatialBuild buf rows cols t) ops').size r =
          (componentOf (runOps (spatialBuild buf rows cols t) ops') r).card) := by
  have hinv : Inv (runOps (DisjointSet.new n) ops) :=
    runOps_Inv ops (DisjointSet.new n) (new_Inv n) hops
  refine ⟨?_, hinv.2.2.1, ?_⟩
  · rw [sum_size_roots _ hinv, runOps_n]
    rfl
  · intro buf t rows cols ops' hops'
    have hinv' : Inv (runOps (spatialBuild buf rows cols t) ops') :=
      runOps_Inv ops' _ (spatialBuild_Inv buf rows cols t)
        (fun op hop => by rw [spatialBuild_n]; exact hops' op hop)
    constructor
    · rw [sum_size_roots _ hinv', runOps_n, spatialBuild_n]
    · exact hinv'.2.2.1

/-- Witness for C9 after one union and one find on 3 singletons. -/
theorem claim_C9_witness :
    (∑ r ∈ roots (runOps (DisjointSet.new 3) [Op.unite 0 1, Op.find 2]),
      (runOps (DisjointSet.new 3) [Op.unite 0 1, Op.find 2]).size r) = 3 :=
  (claim_C9 3 [Op.unite 0 1, Op.find 2] (by decide)).1

/-- Claim C3: on a well-formed state, for in-range `x`, `y` whose roots
differ, `unite(x, y)` returns `true`; the root of strictly smaller rank is
attached under the root of strictly greater rank, whose size entry becomes the
sum of the two roots' size entries and whose rank entry is unchanged; on a
rank tie, `ry` is attached under `rx` and exactly `rx`'s rank is incremented
by `1`. -/
theorem claim_C3 (s : DisjointSet) (hwf : s.WF) (x y : Nat) (hx : x < s.n)
    (hy : y < s.n) (hne : s.rootD x ≠ s.rootD y) :
    (s.unite x y).2 = true ∧
    (s.rank (s.rootD x) < s.rank (s.rootD y) →
      (s.unite x y).1.parent (s.rootD x) = s.rootD y ∧
      (s.unite x y).1.size (s.rootD y) = s.size (s.rootD y) + s.size (s.rootD x) ∧
      (s.unite x y).1.rank = s.rank) ∧
    (s.rank (s.rootD y) < s.rank (s.rootD x) →
      (s.unite x y).1.parent (s.rootD y) = s.rootD x ∧
      (s.unite x y).1.size (s.rootD x) = s.size (s.rootD x) + s.size (s.rootD y) ∧
      (s.unite x y).1.rank = s.rank) ∧
    (s.rank (s.rootD x) = s.rank (s.rootD y) →
      (s.unite x y).1.parent (s.rootD y) = s.rootD x ∧
      (s.unite x y).1.size (s.rootD x) = s.size (s.rootD x) + s.size (s.rootD y) ∧
      (s.unite x y).1.rank (s.rootD x) = s.rank (s.rootD x) + 1 ∧
      ∀ j, j ≠ s.rootD x → (s.unite x y).1.rank j = s.rank j) := by
  refine ⟨(unite_snd_iff s hwf x y hx hy).mpr hne, ?_, ?_, ?_⟩
  · intro hlt
    rw [unite_lt s hwf x y hx hy hne hlt]
    refine ⟨?_, ?_, rfl⟩
    · show Function.update ((s.find x).1.find y).1.parent (s.rootD x) (s.rootD y)
        (s.rootD x) = s.rootD y
      rw [Function.update_same]
    · show Function.update ((s.find x).1.find y).1.size (s.rootD y)
        (((s.find x).1.find y).1.size (s.rootD y) +
          ((s.find x).1.find y).1.size (s.rootD x)) (s.rootD y) =
        s.size (s.rootD y) + s.size (s.rootD x)
      rw [Function.update_same]
      rfl
  · intro hgt
    rw [unite_gt s hwf x y hx hy hne hgt]
    refine ⟨?_, ?_, rfl⟩
    · show Function.update ((s.find x).1.find y).1.parent (s.rootD y) (s.rootD x)
        (s.rootD y) = s.rootD x
      rw [Function.update_same]
    · show Function.update ((s.find x).1.find y).1.size (s.rootD x)
        (((s.find x).1.find y).1.size (s.rootD x) +
          ((s.find x).1.find y).1.size (s.rootD y)) (s.rootD x) =
        s.size (s.rootD x) + s.size (s.rootD y)
      rw [Function.update_same]
      rfl
  · intro heq
    rw [unite_tie s hwf x y hx hy hne heq]
    refine ⟨?_, ?_, ?_, ?_⟩
    · show Function.update ((s.find x).1.find y).1.parent (s.rootD y) (s.rootD x)
        (s.rootD y) = s.rootD x
      rw [Function.update_same]
    · show Function.update ((s.find x).1.find y).1.size (s.rootD x)
        (((s.find x).1.find y).1.size (s.rootD x) +
          ((s.find x).1.find y).1.size (s.rootD y)) (s.rootD x) =
        s.size (s.rootD x) + s.size (s.rootD y)
      rw [Function.update_same]
      rfl
    · show Function.update s.rank (s.rootD x) (s.rank (s.rootD x) + 1) (s.rootD x) =
        s.rank (s.rootD x) + 1
      rw [Function.update_same]
    · intro j hj
      show Function.update s.rank (s.rootD x) (s.rank (s.rootD x) + 1) j = s.rank j
      rw [Function.update_noteq hj]

/-- Witness for C3: the tie case on two fresh singletons, `unite(0, 1)`:
returns `true`, sets `parent[1] = 0`, `size[0] = 2` and `rank[0] = 1`. -/
theorem claim_C3_witness :
    ((DisjointSet.new 2).unite 0 1).2 = true ∧
    ((DisjointSet.new 2).unite 0 1).1.parent 1 = 0 ∧
    ((DisjointSet.new 2).unite 0 1).1.size 0 = 2 ∧
    ((DisjointSet.new 2).unite 0 1).1.rank 0 = 1 := by
  have h := claim_C3 (DisjointSet.new 2) (by decide) 0 1 (by decide) (by decide) (by decide)
  obtain ⟨h1, _, _, h4⟩ := h
  obtain ⟨p1, p2, p3, _⟩ := h4 rfl
  exact ⟨h1, p1, p2, p3⟩

/-- Claim C4: on a well-formed state, `unite(x, y)` for in-range `x`, `y` in
the same component returns `false` and leaves `componentCount`, every `size`
entry, and every `rank` entry unchanged. -/
theorem claim_C4 (s : DisjointSet) (hwf : s.WF) (x y : Nat) (hx : x < s.n)
    (hy : y < s.n) (heq : s.rootD x = s.rootD y) :
    (s.unite x y).2 = false ∧
    (s.unite x y).1.components = s.components ∧
    (∀ i, (s.unite x y).1.size i = s.size i) ∧
    (∀ i, (s.unite x y).1.rank i = s.rank i) := by
  rw [unite_same s hwf x y hx hy heq]
  exact ⟨rfl, rfl, fun i => rfl, fun i => rfl⟩

/-- Witness for C4: re-uniting `0` and `1` after `unite(0, 1)` on 3 singletons
returns `false` and keeps `componentCount` at `2`. -/
theorem claim_C4_witness :
    ((((DisjointSet.new 3).unite 0 1).1).unite 0 1).2 = false ∧
    ((((DisjointSet.new 3).unite 0 1).1).unite 0 1).1.components =
      (((DisjointSet.new 3).unite 0 1).1).components := by
  have h := claim_C4 (((DisjointSet.new 3).unite 0 1).1) (by decide) 0 1 (by decide)
    (by decide) (by decide)
  exact ⟨h.1, h.2.1⟩

/-- Claim C7: on a well-formed state, `find(x)` for in-range `x` returns the
root `r` of `x`'s component (`parent[r] = r`, and `r` is reachable from `x`
along `parent`); afterwards every node on the parent path from `x` points
directly at `r`; and a repeated `find(x)` without an intervening `unite`
returns the same value. -/
theorem claim_C7 (s : DisjointSet) (hwf : s.WF) (x : Nat) (hx : x < s.n) :
    s.parent (s.find x).2 = (s.find x).2 ∧
    (∃ k, s.parent^[k] x = (s.find x).2) ∧
    (∀ k, (s.find x).1.parent (s.parent^[k] x) = (s.find x).2) ∧
    ((s.find x).1.find x).2 = (s.find x).2 := by
  obtain ⟨h1, h2, _⟩ := rootD_spec s hwf x hx
  refine ⟨h1, h2, ?_, ?_⟩
  · intro k
    exact find_parent_path s hwf x hx k
  · exact find_rootD_eq s hwf x hx x hx

/-- Witness for C7 on the state after `unite(0, 1)` of 3 singletons, at
`x = 1` (a non-root): the returned root is its own parent and a second
`find(1)` returns the same value. -/
theorem claim_C7_witness :
    (((DisjointSet.new 3).unite 0 1).1).parent
        ((((DisjointSet.new 3).unite 0 1).1).find 1).2 =
      ((((DisjointSet.new 3).unite 0 1).1).find 1).2 ∧
    (((((DisjointSet.new 3).unite 0 1).1).find 1).1.find 1).2 =
      ((((DisjointSet.new 3).unite 0 1).1).find 1).2 := by
  have h := claim_C7 (((DisjointSet.new 3).unite 0 1).1) (by decide) 1 (by decide)
  exact ⟨h.1, h.2.2.2⟩

/-- Claim C10: starting from `n` singletons, `find` never changes the rank
array; `unite` changes it exactly when it merges two roots of equal rank, and
then only by incrementing the surviving root `rx`'s entry by `1`; every rank
entry is pointwise non-decreasing under any further sequence of public calls;
and `rank[find(x)]` for a fixed `x` never decreases. -/
theorem claim_C10 (n : Nat) (ops1 ops2 : List Op)
    (h1 : ∀ op ∈ ops1, opInRange n op) (h2 : ∀ op ∈ ops2, opInRange n op)
    (x : Nat) (hx : x < n) :
    (∀ y, ((runOps (DisjointSet.new n) ops1).find y).1.rank =
      (runOps (DisjointSet.new n) ops1).rank) ∧
    (∀ x' y', x' < n → y' < n →
      ((runOps (DisjointSet.new n) ops1).unite x' y').1.rank =
        if ((runOps (DisjointSet.new n) ops1).unite x' y').2 = true ∧
           (runOps (DisjointSet.new n) ops1).rank
               ((runOps (DisjointSet.new n) ops1).rootD x') =
             (runOps (DisjointSet.new n) ops1).rank
               ((runOps (DisjointSet.new n) ops1).rootD y')
        then Function.update (runOps (DisjointSet.new n) ops1).rank
               ((runOps (DisjointSet.new n) ops1).rootD x')
               ((runOps (DisjointSet.new n) ops1).rank
                 ((runOps (DisjointSet.new n) ops1).rootD x') + 1)
        else (runOps (DisjointSet.new n) ops1).rank) ∧
    (∀ j, (runOps (DisjointSet.new n) ops1).rank j ≤
      (runOps (runOps (DisjointSet.new n) ops1) ops2).rank j) ∧
    ((runOps (DisjointSet.new n) ops1).rank
        ((runOps (DisjointSet.new n) ops1).rootD x) ≤
      (runOps (runOps (DisjointSet.new n) ops1) ops2).rank
        ((runOps (runOps (DisjointSet.new n) ops1) ops2).rootD x)) := by
  have hinv1 : Inv (runOps (DisjointSet.new n) ops1) :=
    runOps_Inv ops1 (DisjointSet.new n) (new_Inv n) h1
  have hn1 : (runOps (DisjointSet.new n) ops1).n = n := runOps_n ops1 (DisjointSet.new n)
  refine ⟨fun y => rfl, ?_, fun j => runOps_rank_mono ops2 _ j, ?_⟩
  · intro x' y' hx' hy'
    exact unite_rank_char _ hinv1 x' y' (by rw [hn1]; exact hx') (by rw [hn1]; exact hy')
  · refine runOps_rank_rootD_mono ops2 _ hinv1 ?_ x ?_
    · intro op hop
      rw [hn1]
      exact h2 op hop
    · rw [hn1]
      exact hx

/-- Witness for C10: after `unite(0, 1)` on 3 singletons, running a further
`unite(1, 2)` does not decrease `rank[find(0)]`. -/
theorem claim_C10_witness :
    (runOps (DisjointSet.new 3) [Op.unite 0 1]).rank
        ((runOps (DisjointSet.new 3) [Op.unite 0 1]).rootD 0) ≤
      (runOps (runOps (DisjointSet.new 3) [Op.unite 0 1]) [Op.unite 1 2]).rank
        ((runOps (runOps (DisjointSet.new 3) [Op.unite 0 1]) [Op.unite 1 2]).rootD 0) :=
  (claim_C10 3 [Op.unite 0 1] [Op.unite 1 2] (by decide) (by decide) 0 (by decide)).2.2.2

end Djset
